import Mathlib

/-!
Verification of the pagination helpers in
`google/cloud/firestore_v1/services/firestore/pagers.py`.

The file defines two classes, `ListDocumentsPager` and `PartitionQueryPager`,
each of which wraps a fetch method, a (copied) request object carrying a
`page_token` field, and the most recently fetched response carrying a
`next_page_token` field and a repeated item field (`documents` resp.
`partitions`).  The `pages` property is a generator that first yields the
stored response and then, while the stored response's `next_page_token` is
non-empty, writes that token into the stored request, invokes the method,
replaces the stored response with the result and yields it.  `__iter__`
iterates `pages` and yields the elements of each page's item field.
`__getattr__` forwards unknown attribute reads to the stored response and
`__repr__` renders the class name around the stored response's repr.

We embed this shallowly: the mutable request object lives in a small heap
(`Heap`) of numbered cells so that aliasing statements (the caller's request
object is never mutated) are expressible; the generators become fuel-indexed
loops that return the list of yielded values, the list of requests passed to
the fetch method, the final heap, the final stored response and the error, if
the fetch method failed.  Fuel bounds how many page advances the consumer
pulls, so partially consumed enumerations are runs with small fuel.
-/

/-- A request object: a `page_token` string field plus the remaining fields,
opaque to the pager, collected in `rest`. -/
structure Request (ρ : Type) where
  page_token : String
  rest : ρ
deriving DecidableEq

/-- A response object: the repeated item field (called `documents` on
`ListDocumentsResponse` and `partitions` on `PartitionQueryResponse`),
the `next_page_token` string, and the remaining attributes, modelled as an
association list so that attribute passthrough is expressible. -/
structure Response (α : Type) where
  items : List α
  next_page_token : String
  attrs : List (String × String)
deriving DecidableEq

/-- A heap of request cells: Python request objects are mutable and aliased,
so the pager's own request lives at an address.  Addresses below `next` are
allocated. -/
structure Heap (τ : Type) where
  next : Nat
  mem : Nat → τ

/-- Allocate a fresh cell holding `x`; returns the new heap and the address. -/
def Heap.alloc (h : Heap τ) (x : τ) : Heap τ × Nat :=
  (⟨h.next + 1, fun b => if b = h.next then x else h.mem b⟩, h.next)

/-- Overwrite the cell at address `a`. -/
def Heap.set (h : Heap τ) (a : Nat) (x : τ) : Heap τ :=
  ⟨h.next, fun b => if b = a then x else h.mem b⟩

/-- The pager state: the stored fetch method (`self._method`), the address of
the pager-owned request object (`self._request`) and the most recently
fetched response (`self._response`).  The fetch method returns
`Except ε (Response α)`: `Except.error` models the method raising. -/
structure Pager (α ρ ε : Type) where
  _method : Request ρ → Except ε (Response α)
  _reqAddr : Nat
  _response : Response α

/-- The protocol-buffer copy constructor `firestore.ListDocumentsRequest(request)`:
a fresh request value with the same fields. -/
def copyRequest (r : Request ρ) : Request ρ :=
  ⟨r.page_token, r.rest⟩

/-- `__init__`: store the method, allocate a fresh cell holding a copy of the
caller's request (which lives at address `reqAddr`), and store the initial
response.  No fetch is performed. -/
def Pager.init (m : Request ρ → Except ε (Response α)) (h : Heap (Request ρ))
    (reqAddr : Nat) (resp : Response α) : Pager α ρ ε × Heap (Request ρ) :=
  let (h1, a) := h.alloc (copyRequest (h.mem reqAddr))
  (⟨m, a, resp⟩, h1)

/-- The result of running (a consumer pulling) the `pages` generator:
the responses yielded, the requests passed to the fetch method in order,
the final heap, the final stored response, and the error the fetch method
raised, if any. -/
structure PagesRun (R Q ε : Type) where
  yields : List R
  calls : List Q
  heap : Heap Q
  resp : R
  err : Option ε

/-- The `while` loop inside the `pages` generator (everything after the
initial `yield self._response`): while the stored response's
`next_page_token` is non-empty, write it into the request cell, invoke the
method on the stored request, replace the stored response and yield it.
`fuel` bounds how many iterations the consumer pulls; at fuel 0 the consumer
simply stops pulling (no call, no error). -/
def pagesLoop (m : Request ρ → Except ε (Response α)) (addr : Nat) :
    Nat → Heap (Request ρ) → Response α → PagesRun (Response α) (Request ρ) ε
  | 0, h, r => ⟨[], [], h, r, none⟩
  | fuel + 1, h, r =>
    if r.next_page_token = "" then ⟨[], [], h, r, none⟩
    else
      let req : Request ρ := ⟨r.next_page_token, (h.mem addr).rest⟩
      let h1 := h.set addr req
      match m req with
      | .error e => ⟨[], [req], h1, r, some e⟩
      | .ok r2 =>
        let rest := pagesLoop m addr fuel h1 r2
        ⟨r2 :: rest.yields, req :: rest.calls, rest.heap, rest.resp, rest.err⟩

/-- The `pages` property: a fresh generator that first yields the stored
response and then runs the loop. -/
def Pager.pages (p : Pager α ρ ε) (h : Heap (Request ρ)) (fuel : Nat) :
    PagesRun (Response α) (Request ρ) ε :=
  let rest := pagesLoop p._method p._reqAddr fuel h p._response
  ⟨p._response :: rest.yields, rest.calls, rest.heap, rest.resp, rest.err⟩

/-- An event observed by a consumer of `__iter__`: an item yielded, or a
request passed to the fetch method. -/
inductive PagerEv (ι Q : Type) where
  | yieldItem (x : ι)
  | fetchCall (req : Q)
deriving DecidableEq

/-- The result of running `__iter__`: the interleaved trace of yielded items
and fetch calls, the final heap, final stored response, and error if any. -/
structure IterRun (R ι Q ε : Type) where
  events : List (PagerEv ι Q)
  heap : Heap Q
  resp : R
  err : Option ε

/-- `__iter__`: `for page in self.pages: yield from page.<items>`.  The trace
records each item of the current page before the fetch call that obtains the
next page.  Fuel again bounds how many page advances the consumer pulls. -/
def iterLoop (m : Request ρ → Except ε (Response α)) (addr : Nat) :
    Nat → Heap (Request ρ) → Response α → IterRun (Response α) α (Request ρ) ε
  | 0, h, r => ⟨r.items.map .yieldItem, h, r, none⟩
  | fuel + 1, h, r =>
    if r.next_page_token = "" then ⟨r.items.map .yieldItem, h, r, none⟩
    else
      let req : Request ρ := ⟨r.next_page_token, (h.mem addr).rest⟩
      let h1 := h.set addr req
      match m req with
      | .error e => ⟨r.items.map .yieldItem ++ [.fetchCall req], h1, r, some e⟩
      | .ok r2 =>
        let rest := iterLoop m addr fuel h1 r2
        ⟨r.items.map .yieldItem ++ .fetchCall req :: rest.events,
         rest.heap, rest.resp, rest.err⟩

/-- Iterating the pager itself (`__iter__` begins by pulling `self.pages`,
whose first yield is the stored response). -/
def Pager.iter (p : Pager α ρ ε) (h : Heap (Request ρ)) (fuel : Nat) :
    IterRun (Response α) α (Request ρ) ε :=
  iterLoop p._method p._reqAddr fuel h p._response

/-- The attribute names defined on the pager object itself (instance fields
set in `__init__`, the `pages` property, and the methods defined by the
class); Python only consults `__getattr__` for names *not* found by normal
lookup. -/
def pagerOwnNames : List String :=
  ["_method", "_request", "_response", "pages",
   "__init__", "__getattr__", "__iter__", "__repr__"]

/-- Result of an attribute read on the pager. -/
inductive AttrResult where
  | own (member : String)
  | forwarded (value : Option String)
deriving DecidableEq

/-- Attribute lookup on the pager: a name the pager itself defines resolves
to the pager's own member; any other name triggers `__getattr__`, which reads
`getattr(self._response, name)`. -/
def Pager.lookupAttr (p : Pager α ρ ε) (name : String) : AttrResult :=
  if name ∈ pagerOwnNames then .own name
  else .forwarded (p._response.attrs.lookup name)

/-- `__repr__`: the class name, then the repr of the stored response in angle
brackets, per the format string in the source. -/
def Pager.reprStr (className : String) (reprR : Response α → String)
    (p : Pager α ρ ε) : String :=
  className ++ "<" ++ reprR p._response ++ ">"

/-! ### Chains of responses -/

/-- `isChain m (r1 :: ... :: rN)`: each page before the last has a non-empty
next-page token, fetching with any request carrying that token returns the
next page, and the last page's token is empty. -/
def isChain (m : Request ρ → Except ε (Response α)) :
    List (Response α) → Prop
  | [] => True
  | [r] => r.next_page_token = ""
  | r :: r2 :: rs =>
    r.next_page_token ≠ "" ∧
    (∀ req : Request ρ, req.page_token = r.next_page_token →
      m req = .ok r2) ∧
    isChain m (r2 :: rs)

/-- `isFailChain m e (r1 :: ... :: rk)`: pages 1..k link up as in `isChain`,
page k's token is non-empty, and fetching with page k's token raises `e`. -/
def isFailChain (m : Request ρ → Except ε (Response α)) (e : ε) :
    List (Response α) → Prop
  | [] => True
  | [r] =>
    r.next_page_token ≠ "" ∧
    (∀ req : Request ρ, req.page_token = r.next_page_token →
      m req = .error e)
  | r :: r2 :: rs =>
    r.next_page_token ≠ "" ∧
    (∀ req : Request ρ, req.page_token = r.next_page_token →
      m req = .ok r2) ∧
    isFailChain m e (r2 :: rs)

/-- The requests a chain run passes to the fetch method: one per page except
the last, carrying that page's next-page token; the non-token fields `base`
come from the pager's stored request and are never modified. -/
def chainCalls (base : ρ) : List (Response α) → List (Request ρ)
  | [] => []
  | [_] => []
  | r :: r2 :: rs => ⟨r.next_page_token, base⟩ :: chainCalls base (r2 :: rs)

/-- The last response of `r :: rs`. -/
def lastResp (r : Response α) : List (Response α) → Response α
  | [] => r
  | r2 :: rs => lastResp r2 rs

/-! ### Run lemmas -/

/-- A run of the `pages` loop only writes the pager's own request cell:
every other heap cell, and the allocation bound, are untouched. -/
theorem pagesLoop_frame (m : Request ρ → Except ε (Response α)) (addr : Nat) :
    ∀ (fuel : Nat) (h : Heap (Request ρ)) (r : Response α),
      (∀ b, b ≠ addr →
        (pagesLoop m addr fuel h r).heap.mem b = h.mem b) ∧
      (pagesLoop m addr fuel h r).heap.next = h.next := by
  intro fuel
  induction fuel with
  | zero => intro h r; exact ⟨fun b _ => rfl, rfl⟩
  | succ n ih =>
    intro h r
    by_cases htok : r.next_page_token = ""
    · simp [pagesLoop, htok]
    · cases hm : m ⟨r.next_page_token, (h.mem addr).rest⟩ with
      | error e =>
        refine ⟨fun b hb => ?_, ?_⟩
        · simp [pagesLoop, htok, hm, Heap.set, hb]
        · simp [pagesLoop, htok, hm, Heap.set]
      | ok r2 =>
        have := ih (h.set addr ⟨r.next_page_token, (h.mem addr).rest⟩) r2
        refine ⟨fun b hb => ?_, ?_⟩
        · have h1 := this.1 b hb
          simp only [pagesLoop, htok, if_neg htok, hm] at *
          simpa [Heap.set, hb] using h1
        · have h2 := this.2
          simp only [pagesLoop, htok, if_neg htok, hm] at *
          simpa [Heap.set] using h2

/-- Running the `pages` loop from page 1 of a chain with fuel `fuel` yields
the next `min fuel (N-1)` pages in order, calls the fetch method once per
yielded page with the stored request carrying the previous page's token, ends
with the last yielded page stored, and raises no error. -/
theorem pagesLoop_chain (m : Request ρ → Except ε (Response α)) (addr : Nat) :
    ∀ (rs : List (Response α)) (r : Response α) (h : Heap (Request ρ))
      (fuel : Nat),
      isChain m (r :: rs) →
      (pagesLoop m addr fuel h r).yields = rs.take fuel ∧
      (pagesLoop m addr fuel h r).calls =
        chainCalls (h.mem addr).rest (r :: rs.take fuel) ∧
      (pagesLoop m addr fuel h r).resp = lastResp r (rs.take fuel) ∧
      (pagesLoop m addr fuel h r).err = none := by
  intro rs
  induction rs with
  | nil =>
    intro r h fuel hch
    simp only [isChain] at hch
    cases fuel with
    | zero => simp [pagesLoop, chainCalls, lastResp]
    | succ n => simp [pagesLoop, hch, chainCalls, lastResp]
  | cons r2 rs' ih =>
    intro r h fuel hch
    simp only [isChain] at hch
    obtain ⟨htok, hfetch, hchain⟩ := hch
    cases fuel with
    | zero => simp [pagesLoop, chainCalls, lastResp]
    | succ n =>
      have hm : m ⟨r.next_page_token, (h.mem addr).rest⟩ = .ok r2 :=
        hfetch _ rfl
      have hmem : (h.set addr ⟨r.next_page_token, (h.mem addr).rest⟩).mem addr
          = ⟨r.next_page_token, (h.mem addr).rest⟩ := by simp [Heap.set]
      obtain ⟨hy, hc, hr, he⟩ :=
        ih r2 (h.set addr ⟨r.next_page_token, (h.mem addr).rest⟩) n hchain
      refine ⟨?_, ?_, ?_, ?_⟩ <;>
        simp [pagesLoop, htok, hm, chainCalls, lastResp, hy, hc, hr, he, hmem]

/-- Same frame property for `__iter__` runs. -/
theorem iterLoop_frame (m : Request ρ → Except ε (Response α)) (addr : Nat) :
    ∀ (fuel : Nat) (h : Heap (Request ρ)) (r : Response α),
      (∀ b, b ≠ addr →
        (iterLoop m addr fuel h r).heap.mem b = h.mem b) ∧
      (iterLoop m addr fuel h r).heap.next = h.next := by
  intro fuel
  induction fuel with
  | zero => intro h r; exact ⟨fun b _ => rfl, rfl⟩
  | succ n ih =>
    intro h r
    by_cases htok : r.next_page_token = ""
    · simp [iterLoop, htok]
    · cases hm : m ⟨r.next_page_token, (h.mem addr).rest⟩ with
      | error e =>
        refine ⟨fun b hb => ?_, ?_⟩
        · simp [iterLoop, htok, hm, Heap.set, hb]
        · simp [iterLoop, htok, hm, Heap.set]
      | ok r2 =>
        have := ih (h.set addr ⟨r.next_page_token, (h.mem addr).rest⟩) r2
        refine ⟨fun b hb => ?_, ?_⟩
        · have h1 := this.1 b hb
          simp only [iterLoop, htok, if_neg htok, hm] at *
          simpa [Heap.set, hb] using h1
        · have h2 := this.2
          simp only [iterLoop, htok, if_neg htok, hm] at *
          simpa [Heap.set] using h2

/-- Running the `pages` loop from page 1 of a chain whose fetch fails after
page k (fuel enough to reach the failure): pages 2..k are yielded, the error
propagates unchanged, page k stays stored, and the request cell is left
holding page k's next-page token (no rollback). -/
theorem pagesLoop_failChain (m : Request ρ → Except ε (Response α))
    (addr : Nat) (e : ε) :
    ∀ (rs : List (Response α)) (r : Response α) (h : Heap (Request ρ))
      (fuel : Nat),
      isFailChain m e (r :: rs) → rs.length < fuel →
      (pagesLoop m addr fuel h r).yields = rs ∧
      (pagesLoop m addr fuel h r).calls =
        chainCalls (h.mem addr).rest (r :: rs) ++
          [⟨(lastResp r rs).next_page_token, (h.mem addr).rest⟩] ∧
      (pagesLoop m addr fuel h r).resp = lastResp r rs ∧
      (pagesLoop m addr fuel h r).err = some e ∧
      (pagesLoop m addr fuel h r).heap.mem addr =
        ⟨(lastResp r rs).next_page_token, (h.mem addr).rest⟩ := by
  intro rs
  induction rs with
  | nil =>
    intro r h fuel hch hfuel
    simp only [isFailChain] at hch
    obtain ⟨htok, hfail⟩ := hch
    cases fuel with
    | zero => omega
    | succ n =>
      have hm : m ⟨r.next_page_token, (h.mem addr).rest⟩ = .error e :=
        hfail _ rfl
      refine ⟨?_, ?_, ?_, ?_, ?_⟩ <;>
        simp [pagesLoop, htok, hm, chainCalls, lastResp, Heap.set]
  | cons r2 rs' ih =>
    intro r h fuel hch hfuel
    simp only [isFailChain] at hch
    obtain ⟨htok, hfetch, hchain⟩ := hch
    cases fuel with
    | zero => omega
    | succ n =>
      have hm : m ⟨r.next_page_token, (h.mem addr).rest⟩ = .ok r2 :=
        hfetch _ rfl
      have hmem : (h.set addr ⟨r.next_page_token, (h.mem addr).rest⟩).mem addr
          = ⟨r.next_page_token, (h.mem addr).rest⟩ := by simp [Heap.set]
      have hn : rs'.length < n := by
        simp only [List.length_cons] at hfuel; omega
      obtain ⟨hy, hc, hr, he, hh⟩ :=
        ih r2 (h.set addr ⟨r.next_page_token, (h.mem addr).rest⟩) n hchain hn
      refine ⟨?_, ?_, ?_, ?_, ?_⟩ <;>
        simp [pagesLoop, htok, hm, chainCalls, lastResp, hy, hc, hr, he, hh,
          hmem]

/-- If the stored response's next-page token is empty, a `pages` run does
nothing: no yields after the initial one, no fetch call, heap and stored
response unchanged, no error. -/
theorem pagesLoop_exhausted (m : Request ρ → Except ε (Response α))
    (addr : Nat) (fuel : Nat) (h : Heap (Request ρ)) (r : Response α)
    (htok : r.next_page_token = "") :
    pagesLoop m addr fuel h r = ⟨[], [], h, r, none⟩ := by
  cases fuel <;> simp [pagesLoop, htok]

/-- If the stored response's next-page token is empty, an `__iter__` run
yields that page's items only, makes no fetch call and leaves the state
unchanged. -/
theorem iterLoop_exhausted (m : Request ρ → Except ε (Response α))
    (addr : Nat) (fuel : Nat) (h : Heap (Request ρ)) (r : Response α)
    (htok : r.next_page_token = "") :
    iterLoop m addr fuel h r = ⟨r.items.map .yieldItem, h, r, none⟩ := by
  cases fuel <;> simp [iterLoop, htok]

/-- The item/fetch event trace obtained by interleaving a list of pages with
the fetch calls that separate them: all items of a page are yielded before
the next fetch call happens. -/
def pageInterleave : List (Response α) → List (Request ρ) →
    List (PagerEv α (Request ρ))
  | [], cs => cs.map .fetchCall
  | r :: rs, [] => r.items.map .yieldItem ++ pageInterleave rs []
  | r :: rs, c :: cs =>
    r.items.map .yieldItem ++ .fetchCall c :: pageInterleave rs cs

/-- The items yielded in an event trace, in order. -/
def itemsOfEvents : List (PagerEv ι Q) → List ι
  | [] => []
  | .yieldItem x :: evs => x :: itemsOfEvents evs
  | .fetchCall _ :: evs => itemsOfEvents evs

/-- The fetch calls made in an event trace, in order. -/
def callsOfEvents : List (PagerEv ι Q) → List Q
  | [] => []
  | .yieldItem _ :: evs => callsOfEvents evs
  | .fetchCall c :: evs => c :: callsOfEvents evs

/-- Concatenation of the item fields of a list of pages (flat-mapping the
pages through the item-field accessor). -/
def flatItems : List (Response α) → List α
  | [] => []
  | r :: rs => r.items ++ flatItems rs

/-- Items of a pure-yield trace. -/
theorem itemsOfEvents_map_yield (xs : List ι) :
    itemsOfEvents (xs.map (PagerEv.yieldItem (Q := Q))) = xs := by
  induction xs with
  | nil => rfl
  | cons x xs ih => simp [itemsOfEvents, ih]

/-- `itemsOfEvents` distributes over concatenation. -/
theorem itemsOfEvents_append (evs evs' : List (PagerEv ι Q)) :
    itemsOfEvents (evs ++ evs') = itemsOfEvents evs ++ itemsOfEvents evs' := by
  induction evs with
  | nil => rfl
  | cons e evs ih => cases e <;> simp [itemsOfEvents, ih]

/-- A pure-yield trace makes no calls. -/
theorem callsOfEvents_map_yield (xs : List ι) :
    callsOfEvents (xs.map (PagerEv.yieldItem (Q := Q))) = [] := by
  induction xs with
  | nil => rfl
  | cons x xs ih => simp [callsOfEvents, ih]

/-- `callsOfEvents` distributes over concatenation. -/
theorem callsOfEvents_append (evs evs' : List (PagerEv ι Q)) :
    callsOfEvents (evs ++ evs') = callsOfEvents evs ++ callsOfEvents evs' := by
  induction evs with
  | nil => rfl
  | cons e evs ih => cases e <;> simp [callsOfEvents, ih]

/-- The items of an interleaved trace are the concatenated page items. -/
theorem itemsOf_pageInterleave (rs : List (Response α))
    (cs : List (Request ρ)) :
    itemsOfEvents (pageInterleave rs cs) = flatItems rs := by
  induction rs generalizing cs with
  | nil =>
    cases cs with
    | nil => rfl
    | cons c cs =>
      simp only [pageInterleave, flatItems]
      induction cs with
      | nil => rfl
      | cons c' cs' ih => simpa [itemsOfEvents] using ih
  | cons r rs ih =>
    cases cs with
    | nil =>
      simp [pageInterleave, flatItems, itemsOfEvents_append,
        itemsOfEvents_map_yield, ih]
    | cons c cs =>
      simp [pageInterleave, flatItems, itemsOfEvents_append,
        itemsOfEvents_map_yield, itemsOfEvents, ih]

/-- The calls of an interleaved trace are exactly the separating calls. -/
theorem callsOf_pageInterleave (rs : List (Response α))
    (cs : List (Request ρ)) :
    callsOfEvents (pageInterleave rs cs) = cs := by
  induction rs generalizing cs with
  | nil =>
    induction cs with
    | nil => rfl
    | cons c cs ih => simpa [pageInterleave, callsOfEvents] using ih
  | cons r rs ih =>
    cases cs with
    | nil =>
      simp [pageInterleave, callsOfEvents_append, callsOfEvents_map_yield,
        ih]
    | cons c cs =>
      simp [pageInterleave, callsOfEvents_append, callsOfEvents_map_yield,
        callsOfEvents, ih]

/-- An `__iter__` run is the interleaving of the corresponding `pages` run:
the current page's items are all yielded before the fetch call that obtains
the next page, and both runs end in the same heap, response, and error. -/
theorem iterLoop_pagesLoop (m : Request ρ → Except ε (Response α))
    (addr : Nat) :
    ∀ (fuel : Nat) (h : Heap (Request ρ)) (r : Response α),
      (iterLoop m addr fuel h r).events =
        pageInterleave (r :: (pagesLoop m addr fuel h r).yields)
          (pagesLoop m addr fuel h r).calls ∧
      (iterLoop m addr fuel h r).heap = (pagesLoop m addr fuel h r).heap ∧
      (iterLoop m addr fuel h r).resp = (pagesLoop m addr fuel h r).resp ∧
      (iterLoop m addr fuel h r).err = (pagesLoop m addr fuel h r).err := by
  intro fuel
  induction fuel with
  | zero => intro h r; simp [iterLoop, pagesLoop, pageInterleave]
  | succ n ih =>
    intro h r
    by_cases htok : r.next_page_token = ""
    · simp [iterLoop, pagesLoop, htok, pageInterleave]
    · cases hm : m ⟨r.next_page_token, (h.mem addr).rest⟩ with
      | error e =>
        simp [iterLoop, pagesLoop, htok, hm, pageInterleave]
      | ok r2 =>
        obtain ⟨he, hh, hr, herr⟩ :=
          ih (h.set addr ⟨r.next_page_token, (h.mem addr).rest⟩) r2
        refine ⟨?_, ?_, ?_, ?_⟩ <;>
          simp [iterLoop, pagesLoop, htok, hm, pageInterleave, he, hh, hr,
            herr]

/-- In a chain, the last page's next-page token is empty. -/
theorem lastResp_chain_token (m : Request ρ → Except ε (Response α)) :
    ∀ (rs : List (Response α)) (r : Response α),
      isChain m (r :: rs) → (lastResp r rs).next_page_token = "" := by
  intro rs
  induction rs with
  | nil => intro r hch; simpa [isChain, lastResp] using hch
  | cons r2 rs' ih =>
    intro r hch
    simp only [isChain] at hch
    exact ih r2 hch.2.2

/-- In a failing chain, the last successful page's next-page token is
non-empty (that token is the one whose fetch fails). -/
theorem lastResp_failChain_token (m : Request ρ → Except ε (Response α))
    (e : ε) :
    ∀ (rs : List (Response α)) (r : Response α),
      isFailChain m e (r :: rs) → (lastResp r rs).next_page_token ≠ "" := by
  intro rs
  induction rs with
  | nil =>
    intro r hch
    simp only [isFailChain] at hch
    simpa [lastResp] using hch.1
  | cons r2 rs' ih =>
    intro r hch
    simp only [isFailChain] at hch
    exact ih r2 hch.2.2

/-- The first fetch call of a `pages` run from a non-exhausted response is
the stored request updated with that response's next-page token. -/
theorem pagesLoop_firstCall (m : Request ρ → Except ε (Response α))
    (addr : Nat) (fuel : Nat) (h : Heap (Request ρ)) (r : Response α)
    (htok : r.next_page_token ≠ "") (hfuel : 0 < fuel) :
    (pagesLoop m addr fuel h r).calls.head? =
      some ⟨r.next_page_token, (h.mem addr).rest⟩ := by
  cases fuel with
  | zero => omega
  | succ n =>
    cases hm : m ⟨r.next_page_token, (h.mem addr).rest⟩ with
    | error e => simp [pagesLoop, htok, hm]
    | ok r2 => simp [pagesLoop, htok, hm]

/-- A sequence of enumerations of the pager: each entry of `es` is one
enumeration — `true` for the `pages` view, `false` for the item view — with
the number of page advances its consumer pulls.  Returns all requests passed
to the fetch method across the whole sequence, with the final heap and final
stored response. -/
def runEnums (m : Request ρ → Except ε (Response α)) (addr : Nat) :
    List (Bool × Nat) → Heap (Request ρ) → Response α →
      List (Request ρ) × Heap (Request ρ) × Response α
  | [], h, r => ([], h, r)
  | (true, fuel) :: es, h, r =>
    let run := pagesLoop m addr fuel h r
    let rest := runEnums m addr es run.heap run.resp
    (run.calls ++ rest.1, rest.2)
  | (false, fuel) :: es, h, r =>
    let run := iterLoop m addr fuel h r
    let rest := runEnums m addr es run.heap run.resp
    (callsOfEvents run.events ++ rest.1, rest.2)

/-- Each chain call carries the token of the page it advances from. -/
theorem chainCalls_token (base : ρ) :
    ∀ (rs : List (Response α)) (i : Nat), i + 1 < rs.length →
      (chainCalls base rs)[i]?.map Request.page_token =
        rs[i]?.map Response.next_page_token := by
  intro rs
  induction rs with
  | nil => intro i hi; simp at hi
  | cons r rs ih =>
    intro i hi
    cases rs with
    | nil => simp at hi
    | cons r2 rs' =>
      cases i with
      | zero => simp [chainCalls]
      | succ j =>
        have hj : j + 1 < (r2 :: rs').length := by
          simpa [List.length_cons] using Nat.lt_of_succ_lt_succ hi
        simpa [chainCalls] using ih j hj

/-- Each chain call's non-token fields are `base`, and there is one call per
page except the last. -/
theorem chainCalls_shape (base : ρ) :
    ∀ (rs : List (Response α)),
      (chainCalls base rs).length = rs.length - 1 ∧
      ∀ q ∈ chainCalls base rs, q.rest = base := by
  intro rs
  induction rs with
  | nil => exact ⟨rfl, by intro q hq; simp [chainCalls] at hq⟩
  | cons r rs ih =>
    cases rs with
    | nil => exact ⟨rfl, by intro q hq; simp [chainCalls] at hq⟩
    | cons r2 rs' =>
      obtain ⟨hl, hb⟩ := ih
      constructor
      · simp only [chainCalls, List.length_cons] at *
        omega
      · intro q hq
        simp only [chainCalls, List.mem_cons] at hq
        rcases hq with hq | hq
        · simp [hq]
        · exact hb q hq

/-! ### Concrete fixture used by the witnesses

The concrete scenario of the specification: page 1 holds items `a`, `b` and
next-page token `T1`; fetching with token `T1` returns page 2 with item `c`
and an empty token.  The caller's request object lives in heap cell 0. -/

def wResp1 : Response String := ⟨["a", "b"], "T1", [("create_time", "t1")]⟩

def wResp2 : Response String := ⟨["c"], "", [("create_time", "t2")]⟩

def wMethod : Request Unit → Except Unit (Response String) :=
  fun req => if req.page_token = "T1" then .ok wResp2 else .error ()

def wHeap : Heap (Request Unit) := ⟨1, fun _ => ⟨"", ()⟩⟩

def wPager : Pager String Unit Unit := (Pager.init wMethod wHeap 0 wResp1).1

def wHeap1 : Heap (Request Unit) := (Pager.init wMethod wHeap 0 wResp1).2

/-- The two-page fixture is a chain. -/
theorem wChain : isChain wMethod [wResp1, wResp2] := by
  refine ⟨by decide, fun req hreq => ?_, rfl⟩
  simp [wMethod, hreq, wResp1]

/-- A fetch method that always raises, with the raised error naming the
token it was called with. -/
def wFailMethod : Request Unit → Except String (Response String) :=
  fun req => .error ("boom:" ++ req.page_token)

def wFailPager : Pager String Unit String :=
  (Pager.init wFailMethod wHeap 0 wResp1).1

def wFailHeap1 : Heap (Request Unit) :=
  (Pager.init wFailMethod wHeap 0 wResp1).2

/-- The one-page fixture whose continuation fetch fails. -/
theorem wFailChain : isFailChain wFailMethod "boom:T1" [wResp1] := by
  refine ⟨by decide, fun req hreq => ?_⟩
  simp [wFailMethod, hreq, wResp1]

/-! ### Claim theorems -/

/-- C1: for every chain of N responses (each non-final page's non-empty
next-page token fetches the next page, the final page's token is empty), the
pages view yields exactly the N responses in order, the fetch method is
invoked exactly N-1 times, each time with the stored request whose
`page_token` equals the previous response's next-page token (its other
fields being those of the pager's stored request), and no error occurs;
for N = 1 (`rs = []`) it yields only the initial response and never invokes
the fetch method. -/
theorem pages_chain_run (p : Pager α ρ ε) (h : Heap (Request ρ))
    (rs : List (Response α)) (fuel : Nat)
    (hch : isChain p._method (p._response :: rs))
    (hfuel : rs.length ≤ fuel) :
    (p.pages h fuel).yields = p._response :: rs ∧
    (p.pages h fuel).calls.length = (p._response :: rs).length - 1 ∧
    (p.pages h fuel).calls =
      chainCalls (h.mem p._reqAddr).rest (p._response :: rs) ∧
    (∀ i, i + 1 < (p._response :: rs).length →
      (p.pages h fuel).calls[i]?.map Request.page_token =
        (p._response :: rs)[i]?.map Response.next_page_token) ∧
    (p.pages h fuel).err = none := by
  obtain ⟨hy, hc, _, he⟩ :=
    pagesLoop_chain p._method p._reqAddr rs p._response h fuel hch
  have htake : rs.take fuel = rs := List.take_of_length_le hfuel
  rw [htake] at hy hc
  have hyields : (p.pages h fuel).yields = p._response :: rs := by
    simp [Pager.pages, hy]
  have hcalls : (p.pages h fuel).calls =
      chainCalls (h.mem p._reqAddr).rest (p._response :: rs) := by
    simp [Pager.pages, hc]
  refine ⟨hyields, ?_, hcalls, ?_, by simp [Pager.pages, he]⟩
  · rw [hcalls]
    exact (chainCalls_shape _ _).1
  · intro i hi
    rw [hcalls]
    exact chainCalls_token _ _ i hi

/-- Witness for C1 on the concrete two-page fixture. -/
theorem pages_chain_run_witness :
    (wPager.pages wHeap1 1).yields = [wResp1, wResp2] ∧
    (wPager.pages wHeap1 1).calls.length = 1 ∧
    (wPager.pages wHeap1 1).calls = [⟨"T1", ()⟩] ∧
    (wPager.pages wHeap1 1).err = none := by
  obtain ⟨hy, hl, hc, _, he⟩ :=
    pages_chain_run wPager wHeap1 [wResp2] 1 wChain (by decide)
  exact ⟨hy, hl, hc, he⟩

/-- C2: for every pager, heap and fuel, iterating the pager itself produces
the interleaved trace in which every item of a page is yielded before the
fetch call for the next page, the items yielded are exactly the concatenation
of the item fields of the pages the pages view yields (flat-mapping the pages
view through the field accessor), the fetch calls are the same as those of
the pages view, and both runs end in the same state. -/
theorem iter_flattens_pages (p : Pager α ρ ε) (h : Heap (Request ρ))
    (fuel : Nat) :
    (p.iter h fuel).events =
      pageInterleave (p.pages h fuel).yields (p.pages h fuel).calls ∧
    itemsOfEvents (p.iter h fuel).events = flatItems (p.pages h fuel).yields ∧
    callsOfEvents (p.iter h fuel).events = (p.pages h fuel).calls ∧
    (p.iter h fuel).heap = (p.pages h fuel).heap ∧
    (p.iter h fuel).resp = (p.pages h fuel).resp ∧
    (p.iter h fuel).err = (p.pages h fuel).err := by
  obtain ⟨he, hh, hr, herr⟩ :=
    iterLoop_pagesLoop p._method p._reqAddr fuel h p._response
  have hev : (p.iter h fuel).events =
      pageInterleave (p.pages h fuel).yields (p.pages h fuel).calls := by
    simpa [Pager.iter, Pager.pages] using he
  refine ⟨hev, ?_, ?_, ?_, ?_, ?_⟩
  · rw [hev, itemsOf_pageInterleave]
  · rw [hev, callsOf_pageInterleave]
  · simpa [Pager.iter, Pager.pages] using hh
  · simpa [Pager.iter, Pager.pages] using hr
  · simpa [Pager.iter, Pager.pages] using herr

/-- C3: if the fetch method raises while advancing past page k of a failing
chain, the pages view yields pages 1..k, the error propagates unchanged, the
stored response remains page k (the last successfully fetched page), the
stored request keeps page k's next-page token (no rollback), and a retry
that pulls the pages view again issues exactly the same already-advanced
request as its first fetch call. -/
theorem pages_failChain_run (p : Pager α ρ ε) (h : Heap (Request ρ))
    (rs : List (Response α)) (e : ε) (fuel : Nat)
    (hch : isFailChain p._method e (p._response :: rs))
    (hfuel : rs.length < fuel) :
    (p.pages h fuel).yields = p._response :: rs ∧
    (p.pages h fuel).err = some e ∧
    (p.pages h fuel).resp = lastResp p._response rs ∧
    (p.pages h fuel).heap.mem p._reqAddr =
      ⟨(lastResp p._response rs).next_page_token, (h.mem p._reqAddr).rest⟩ ∧
    (∀ fuel2, 0 < fuel2 →
      (pagesLoop p._method p._reqAddr fuel2 (p.pages h fuel).heap
          (p.pages h fuel).resp).calls.head? =
        some ⟨(lastResp p._response rs).next_page_token,
          (h.mem p._reqAddr).rest⟩) := by
  obtain ⟨hy, _, hr, he, hh⟩ :=
    pagesLoop_failChain p._method p._reqAddr e rs p._response h fuel hch hfuel
  have hyields : (p.pages h fuel).yields = p._response :: rs := by
    simp [Pager.pages, hy]
  have hresp : (p.pages h fuel).resp = lastResp p._response rs := by
    simp [Pager.pages, hr]
  have hheap : (p.pages h fuel).heap.mem p._reqAddr =
      ⟨(lastResp p._response rs).next_page_token, (h.mem p._reqAddr).rest⟩ := by
    simp [Pager.pages, hh]
  refine ⟨hyields, by simp [Pager.pages, he], hresp, hheap, ?_⟩
  intro fuel2 hfuel2
  have htok : ((p.pages h fuel).resp).next_page_token ≠ "" := by
    rw [hresp]
    exact lastResp_failChain_token p._method e rs p._response hch
  have := pagesLoop_firstCall p._method p._reqAddr fuel2 (p.pages h fuel).heap
    (p.pages h fuel).resp htok hfuel2
  rw [this, hresp, hheap]

/-- Witness for C3 on the concrete fixture whose second fetch raises. -/
theorem pages_failChain_run_witness :
    (wFailPager.pages wFailHeap1 1).yields = [wResp1] ∧
    (wFailPager.pages wFailHeap1 1).err = some "boom:T1" ∧
    (wFailPager.pages wFailHeap1 1).resp = wResp1 ∧
    (wFailPager.pages wFailHeap1 1).heap.mem 1 = ⟨"T1", ()⟩ := by
  obtain ⟨hy, he, hr, hh, _⟩ :=
    pages_failChain_run wFailPager wFailHeap1 [] "boom:T1" 1 wFailChain
      (by decide)
  exact ⟨hy, he, hr, hh⟩

/-- C4: an attribute name that is not one of the pager's own members is
forwarded to the most recently fetched response: before any advance it reads
the stored response, and after consuming the pages view through `fuel`
advances it reads the fields of the last page consumed, not page 1's. -/
theorem passthrough_latest (p : Pager α ρ ε) (h : Heap (Request ρ))
    (rs : List (Response α)) (fuel : Nat) (name : String)
    (hch : isChain p._method (p._response :: rs))
    (hname : name ∉ pagerOwnNames) :
    Pager.lookupAttr p name = .forwarded (p._response.attrs.lookup name) ∧
    Pager.lookupAttr { p with _response := (p.pages h fuel).resp } name =
      .forwarded ((lastResp p._response (rs.take fuel)).attrs.lookup name) := by
  obtain ⟨_, _, hr, _⟩ :=
    pagesLoop_chain p._method p._reqAddr rs p._response h fuel hch
  have hresp : (p.pages h fuel).resp = lastResp p._response (rs.take fuel) := by
    simp [Pager.pages, hr]
  constructor
  · simp [Pager.lookupAttr, hname]
  · simp [Pager.lookupAttr, hname, hresp]

/-- Witness for C4: after consuming both pages of the fixture, reading
`create_time` through the pager returns page 2's value, not page 1's. -/
theorem passthrough_latest_witness :
    Pager.lookupAttr wPager "create_time" =
      .forwarded (some "t1") ∧
    Pager.lookupAttr
        { wPager with _response := (wPager.pages wHeap1 1).resp }
        "create_time" =
      .forwarded (some "t2") := by
  obtain ⟨h1, h2⟩ :=
    passthrough_latest wPager wHeap1 [wResp2] 1 "create_time" wChain
      (by decide)
  exact ⟨h1, h2⟩

/-- C5: once the stored response's next-page token is empty the pager is
exhausted, and exhaustion is terminal: any sequence of subsequent
enumerations of the pages view or the item view makes no fetch call at all
and leaves heap and stored response unchanged. -/
theorem exhausted_terminal (p : Pager α ρ ε) (h : Heap (Request ρ))
    (es : List (Bool × Nat))
    (htok : p._response.next_page_token = "") :
    runEnums p._method p._reqAddr es h p._response = ([], h, p._response) := by
  induction es with
  | nil => rfl
  | cons e es ih =>
    obtain ⟨b, fuel⟩ := e
    cases b with
    | true =>
      simp [runEnums,
        pagesLoop_exhausted p._method p._reqAddr fuel h p._response htok, ih]
    | false =>
      simp [runEnums,
        iterLoop_exhausted p._method p._reqAddr fuel h p._response htok,
        callsOfEvents_map_yield, ih]

/-- Witness for C5: a pager holding the exhausted page 2 of the fixture
makes no fetch call under a pages enumeration followed by two item
enumerations. -/
theorem exhausted_terminal_witness :
    runEnums wMethod 1 [(true, 5), (false, 3), (false, 2)] wHeap1 wResp2 =
      ([], wHeap1, wResp2) := by
  exact exhausted_terminal
    (Pager.mk wMethod 1 wResp2) wHeap1 [(true, 5), (false, 3), (false, 2)] rfl

/-- C6: construction stores the initial response, allocates a fresh copy of
the caller's request (at a new address, distinct from the caller's), invokes
the fetch method zero times (the constructed state and heap do not depend on
the method's behaviour), does not touch the caller's request cell, and no
subsequent page advance — through the pages view or the item view — ever
writes to the caller's request cell: only the pager's own copy is updated. -/
theorem construct_copy_no_fetch_frame (m : Request ρ → Except ε (Response α))
    (h : Heap (Request ρ)) (reqAddr : Nat) (resp : Response α)
    (hvalid : reqAddr < h.next) :
    (Pager.init m h reqAddr resp).1._response = resp ∧
    (Pager.init m h reqAddr resp).1._reqAddr ≠ reqAddr ∧
    (Pager.init m h reqAddr resp).2.mem (Pager.init m h reqAddr resp).1._reqAddr
      = copyRequest (h.mem reqAddr) ∧
    (Pager.init m h reqAddr resp).2.mem reqAddr = h.mem reqAddr ∧
    (∀ m' : Request ρ → Except ε (Response α),
      (Pager.init m' h reqAddr resp).1._reqAddr =
        (Pager.init m h reqAddr resp).1._reqAddr ∧
      (Pager.init m' h reqAddr resp).1._response =
        (Pager.init m h reqAddr resp).1._response ∧
      (Pager.init m' h reqAddr resp).2 = (Pager.init m h reqAddr resp).2) ∧
    (∀ fuel, ((Pager.init m h reqAddr resp).1.pages
        (Pager.init m h reqAddr resp).2 fuel).heap.mem reqAddr =
      h.mem reqAddr) ∧
    (∀ fuel, ((Pager.init m h reqAddr resp).1.iter
        (Pager.init m h reqAddr resp).2 fuel).heap.mem reqAddr =
      h.mem reqAddr) := by
  have hne : h.next ≠ reqAddr := (Nat.ne_of_lt hvalid).symm
  have hmem : (Pager.init m h reqAddr resp).2.mem reqAddr = h.mem reqAddr := by
    simp [Pager.init, Heap.alloc, hne.symm]
  refine ⟨rfl, hne, ?_, hmem, fun m' => ⟨rfl, rfl, rfl⟩, ?_, ?_⟩
  · simp [Pager.init, Heap.alloc]
  · intro fuel
    have := (pagesLoop_frame m h.next fuel (Pager.init m h reqAddr resp).2
      resp).1 reqAddr hne.symm
    calc ((Pager.init m h reqAddr resp).1.pages
        (Pager.init m h reqAddr resp).2 fuel).heap.mem reqAddr
        = (Pager.init m h reqAddr resp).2.mem reqAddr := this
      _ = h.mem reqAddr := hmem
  · intro fuel
    have := (iterLoop_frame m h.next fuel (Pager.init m h reqAddr resp).2
      resp).1 reqAddr hne.symm
    calc ((Pager.init m h reqAddr resp).1.iter
        (Pager.init m h reqAddr resp).2 fuel).heap.mem reqAddr
        = (Pager.init m h reqAddr resp).2.mem reqAddr := this
      _ = h.mem reqAddr := hmem

/-- Witness for C6 on the concrete fixture: the caller's request in cell 0
is copied into fresh cell 1 and cell 0 is untouched by construction and by a
full pages run. -/
theorem construct_copy_no_fetch_frame_witness :
    (Pager.init wMethod wHeap 0 wResp1).1._response = wResp1 ∧
    (Pager.init wMethod wHeap 0 wResp1).1._reqAddr = 1 ∧
    wHeap1.mem 1 = ⟨"", ()⟩ ∧
    wHeap1.mem 0 = ⟨"", ()⟩ ∧
    (wPager.pages wHeap1 1).heap.mem 0 = ⟨"", ()⟩ := by
  obtain ⟨h1, _, h3, h4, _, h6, _⟩ :=
    construct_copy_no_fetch_frame wMethod wHeap 0 wResp1 (by decide)
  exact ⟨h1, rfl, h3, h4, h6 1⟩

/-- C8: at every point of enumeration the debug representation is the class
name followed by the representation of the currently stored response in
angle brackets: initially the initial response, and after consuming the
pages view through `fuel` advances, the last page consumed. -/
theorem repr_shows_current (p : Pager α ρ ε) (h : Heap (Request ρ))
    (rs : List (Response α)) (fuel : Nat) (cn : String)
    (rr : Response α → String)
    (hch : isChain p._method (p._response :: rs)) :
    Pager.reprStr cn rr p = cn ++ "<" ++ rr p._response ++ ">" ∧
    Pager.reprStr cn rr { p with _response := (p.pages h fuel).resp } =
      cn ++ "<" ++ rr (lastResp p._response (rs.take fuel)) ++ ">" := by
  obtain ⟨_, _, hr, _⟩ :=
    pagesLoop_chain p._method p._reqAddr rs p._response h fuel hch
  have hresp : (p.pages h fuel).resp = lastResp p._response (rs.take fuel) := by
    simp [Pager.pages, hr]
  exact ⟨rfl, by simp [Pager.reprStr, hresp]⟩

/-- Witness for C8: before any advance the fixture pager displays page 1's
field, after consuming both pages it displays page 2's. -/
theorem repr_shows_current_witness :
    Pager.reprStr "ListDocumentsPager"
        (fun r => (r.attrs.lookup "create_time").getD "") wPager =
      "ListDocumentsPager<t1>" ∧
    Pager.reprStr "ListDocumentsPager"
        (fun r => (r.attrs.lookup "create_time").getD "")
        { wPager with _response := (wPager.pages wHeap1 1).resp } =
      "ListDocumentsPager<t2>" := by
  obtain ⟨h1, h2⟩ :=
    repr_shows_current wPager wHeap1 [wResp2] 1 "ListDocumentsPager"
      (fun r => (r.attrs.lookup "create_time").getD "") wChain
  exact ⟨h1, h2⟩

/-- C9: every access of the pages view is a fresh traversal whose first
yield is the currently stored response; after the pages view of a chain has
been fully consumed, a second enumeration yields exactly the last page and
makes no fetch call, and the item view then yields exactly the last page's
items with no fetch call. -/
theorem pages_fresh_and_restart (p : Pager α ρ ε) (h : Heap (Request ρ))
    (rs : List (Response α)) (fuel fuel2 : Nat)
    (hch : isChain p._method (p._response :: rs))
    (hfuel : rs.length ≤ fuel) :
    (∀ (q : Pager α ρ ε) (h2 : Heap (Request ρ)) (f : Nat),
      (q.pages h2 f).yields.head? = some q._response) ∧
    ({ p with _response := (p.pages h fuel).resp }.pages
        (p.pages h fuel).heap fuel2).yields = [lastResp p._response rs] ∧
    ({ p with _response := (p.pages h fuel).resp }.pages
        (p.pages h fuel).heap fuel2).calls = [] ∧
    itemsOfEvents ({ p with _response := (p.pages h fuel).resp }.iter
        (p.pages h fuel).heap fuel2).events =
      (lastResp p._response rs).items ∧
    callsOfEvents ({ p with _response := (p.pages h fuel).resp }.iter
        (p.pages h fuel).heap fuel2).events = [] := by
  obtain ⟨_, _, hr, _⟩ :=
    pagesLoop_chain p._method p._reqAddr rs p._response h fuel hch
  have htake : rs.take fuel = rs := List.take_of_length_le hfuel
  rw [htake] at hr
  have hresp : (p.pages h fuel).resp = lastResp p._response rs := by
    simp [Pager.pages, hr]
  have htok : (lastResp p._response rs).next_page_token = "" :=
    lastResp_chain_token p._method rs p._response hch
  refine ⟨fun q h2 f => by simp [Pager.pages], ?_, ?_, ?_, ?_⟩
  · simp [Pager.pages, hr, pagesLoop_exhausted, htok]
  · simp [Pager.pages, hr, pagesLoop_exhausted, htok]
  · simp [Pager.iter, Pager.pages, hr, iterLoop_exhausted, htok,
      itemsOfEvents_map_yield]
  · simp [Pager.iter, Pager.pages, hr, iterLoop_exhausted, htok,
      callsOfEvents_map_yield]

/-- Witness for C9: after fully consuming the two-page fixture, a second
pages enumeration yields only page 2 and an item enumeration yields only
page 2's item, with no fetch calls. -/
theorem pages_fresh_and_restart_witness :
    ({ wPager with _response := (wPager.pages wHeap1 1).resp }.pages
        (wPager.pages wHeap1 1).heap 4).yields = [wResp2] ∧
    ({ wPager with _response := (wPager.pages wHeap1 1).resp }.pages
        (wPager.pages wHeap1 1).heap 4).calls = [] ∧
    itemsOfEvents ({ wPager with _response := (wPager.pages wHeap1 1).resp
        }.iter (wPager.pages wHeap1 1).heap 4).events = ["c"] := by
  obtain ⟨_, h2, h3, h4, _⟩ :=
    pages_fresh_and_restart wPager wHeap1 [wResp2] 1 4 wChain (by decide)
  exact ⟨h2, h3, h4⟩

/-- C10: attribute passthrough applies only to names the pager does not
itself define: a pager-own name always resolves to the pager's own member —
whatever attributes the stored response has — and any other name is
forwarded to the stored response. -/
theorem own_names_shadow (p : Pager α ρ ε) (name : String) :
    (name ∈ pagerOwnNames → Pager.lookupAttr p name = .own name) ∧
    (name ∉ pagerOwnNames →
      Pager.lookupAttr p name = .forwarded (p._response.attrs.lookup name)) := by
  constructor <;> intro hname <;> simp [Pager.lookupAttr, hname]

/-- Witness for C10: on a pager whose stored response even has attributes
named `pages` and `_response`, those reads still resolve to the pager's own
members, while an unknown name is forwarded. -/
theorem own_names_shadow_witness :
    Pager.lookupAttr
        (Pager.mk wMethod 1 ⟨[], "", [("pages", "X"), ("_response", "Y")]⟩)
        "pages" = .own "pages" ∧
    Pager.lookupAttr
        (Pager.mk wMethod 1 ⟨[], "", [("pages", "X"), ("_response", "Y")]⟩)
        "_response" = .own "_response" ∧
    Pager.lookupAttr
        (Pager.mk wMethod 1 ⟨[], "", [("pages", "X"), ("_response", "Y")]⟩)
        "read_time" = .forwarded none := by
  refine ⟨(own_names_shadow _ "pages").1 (by decide),
    (own_names_shadow _ "_response").1 (by decide), ?_⟩
  have := (own_names_shadow
    (Pager.mk wMethod 1 ⟨[], "", [("pages", "X"), ("_response", "Y")]⟩)
    "read_time").2 (by decide)
  simpa using this

/-! ### The two concrete pager classes

`ListDocumentsPager` and `PartitionQueryPager` are the two classes of the
source file, embedded separately and literally: they differ only in their
request/response types and in the name of the repeated item field
(`documents` versus `partitions`).  Below, each is related to the generic
`Pager` model, showing that one generic type instantiated twice realizes
both. -/

structure ListDocumentsRequest (ρ : Type) where
  page_token : String
  rest : ρ
deriving DecidableEq

structure ListDocumentsResponse (δ : Type) where
  documents : List δ
  next_page_token : String
  attrs : List (String × String)
deriving DecidableEq

structure ListDocumentsPager (δ ρ ε : Type) where
  _method : ListDocumentsRequest ρ → Except ε (ListDocumentsResponse δ)
  _reqAddr : Nat
  _response : ListDocumentsResponse δ

/-- `firestore.ListDocumentsRequest(request)`. -/
def ListDocumentsRequest.copy (r : ListDocumentsRequest ρ) :
    ListDocumentsRequest ρ :=
  ⟨r.page_token, r.rest⟩

def ListDocumentsPager.init
    (m : ListDocumentsRequest ρ → Except ε (ListDocumentsResponse δ))
    (h : Heap (ListDocumentsRequest ρ)) (reqAddr : Nat)
    (resp : ListDocumentsResponse δ) :
    ListDocumentsPager δ ρ ε × Heap (ListDocumentsRequest ρ) :=
  let (h1, a) := h.alloc (ListDocumentsRequest.copy (h.mem reqAddr))
  (⟨m, a, resp⟩, h1)

def ldPagesLoop
    (m : ListDocumentsRequest ρ → Except ε (ListDocumentsResponse δ))
    (addr : Nat) :
    Nat → Heap (ListDocumentsRequest ρ) → ListDocumentsResponse δ →
      PagesRun (ListDocumentsResponse δ) (ListDocumentsRequest ρ) ε
  | 0, h, r => ⟨[], [], h, r, none⟩
  | fuel + 1, h, r =>
    if r.next_page_token = "" then ⟨[], [], h, r, none⟩
    else
      let req : ListDocumentsRequest ρ :=
        ⟨r.next_page_token, (h.mem addr).rest⟩
      let h1 := h.set addr req
      match m req with
      | .error e => ⟨[], [req], h1, r, some e⟩
      | .ok r2 =>
        let rest := ldPagesLoop m addr fuel h1 r2
        ⟨r2 :: rest.yields, req :: rest.calls, rest.heap, rest.resp, rest.err⟩

def ListDocumentsPager.pages (p : ListDocumentsPager δ ρ ε)
    (h : Heap (ListDocumentsRequest ρ)) (fuel : Nat) :
    PagesRun (ListDocumentsResponse δ) (ListDocumentsRequest ρ) ε :=
  let rest := ldPagesLoop p._method p._reqAddr fuel h p._response
  ⟨p._response :: rest.yields, rest.calls, rest.heap, rest.resp, rest.err⟩

def ldIterLoop
    (m : ListDocumentsRequest ρ → Except ε (ListDocumentsResponse δ))
    (addr : Nat) :
    Nat → Heap (ListDocumentsRequest ρ) → ListDocumentsResponse δ →
      IterRun (ListDocumentsResponse δ) δ (ListDocumentsRequest ρ) ε
  | 0, h, r => ⟨r.documents.map .yieldItem, h, r, none⟩
  | fuel + 1, h, r =>
    if r.next_page_token = "" then ⟨r.documents.map .yieldItem, h, r, none⟩
    else
      let req : ListDocumentsRequest ρ :=
        ⟨r.next_page_token, (h.mem addr).rest⟩
      let h1 := h.set addr req
      match m req with
      | .error e =>
        ⟨r.documents.map .yieldItem ++ [.fetchCall req], h1, r, some e⟩
      | .ok r2 =>
        let rest := ldIterLoop m addr fuel h1 r2
        ⟨r.documents.map .yieldItem ++ .fetchCall req :: rest.events,
         rest.heap, rest.resp, rest.err⟩

def ListDocumentsPager.iter (p : ListDocumentsPager δ ρ ε)
    (h : Heap (ListDocumentsRequest ρ)) (fuel : Nat) :
    IterRun (ListDocumentsResponse δ) δ (ListDocumentsRequest ρ) ε :=
  ldIterLoop p._method p._reqAddr fuel h p._response

def ListDocumentsPager.lookupAttr (p : ListDocumentsPager δ ρ ε)
    (name : String) : AttrResult :=
  if name ∈ pagerOwnNames then .own name
  else .forwarded (p._response.attrs.lookup name)

def ListDocumentsPager.reprStr (rr : ListDocumentsResponse δ → String)
    (p : ListDocumentsPager δ ρ ε) : String :=
  "ListDocumentsPager" ++ "<" ++ rr p._response ++ ">"

structure PartitionQueryRequest (ρ : Type) where
  page_token : String
  rest : ρ
deriving DecidableEq

structure PartitionQueryResponse (κ : Type) where
  partitions : List κ
  next_page_token : String
  attrs : List (String × String)
deriving DecidableEq

structure PartitionQueryPager (κ ρ ε : Type) where
  _method : PartitionQueryRequest ρ → Except ε (PartitionQueryResponse κ)
  _reqAddr : Nat
  _response : PartitionQueryResponse κ

/-- `firestore.PartitionQueryRequest(request)`. -/
def PartitionQueryRequest.copy (r : PartitionQueryRequest ρ) :
    PartitionQueryRequest ρ :=
  ⟨r.page_token, r.rest⟩

def PartitionQueryPager.init
    (m : PartitionQueryRequest ρ → Except ε (PartitionQueryResponse κ))
    (h : Heap (PartitionQueryRequest ρ)) (reqAddr : Nat)
    (resp : PartitionQueryResponse κ) :
    PartitionQueryPager κ ρ ε × Heap (PartitionQueryRequest ρ) :=
  let (h1, a) := h.alloc (PartitionQueryRequest.copy (h.mem reqAddr))
  (⟨m, a, resp⟩, h1)

def pqPagesLoop
    (m : PartitionQueryRequest ρ → Except ε (PartitionQueryResponse κ))
    (addr : Nat) :
    Nat → Heap (PartitionQueryRequest ρ) → PartitionQueryResponse κ →
      PagesRun (PartitionQueryResponse κ) (PartitionQueryRequest ρ) ε
  | 0, h, r => ⟨[], [], h, r, none⟩
  | fuel + 1, h, r =>
    if r.next_page_token = "" then ⟨[], [], h, r, none⟩
    else
      let req : PartitionQueryRequest ρ :=
        ⟨r.next_page_token, (h.mem addr).rest⟩
      let h1 := h.set addr req
      match m req with
      | .error e => ⟨[], [req], h1, r, some e⟩
      | .ok r2 =>
        let rest := pqPagesLoop m addr fuel h1 r2
        ⟨r2 :: rest.yields, req :: rest.calls, rest.heap, rest.resp, rest.err⟩

def PartitionQueryPager.pages (p : PartitionQueryPager κ ρ ε)
    (h : Heap (PartitionQueryRequest ρ)) (fuel : Nat) :
    PagesRun (PartitionQueryResponse κ) (PartitionQueryRequest ρ) ε :=
  let rest := pqPagesLoop p._method p._reqAddr fuel h p._response
  ⟨p._response :: rest.yields, rest.calls, rest.heap, rest.resp, rest.err⟩

def pqIterLoop
    (m : PartitionQueryRequest ρ → Except ε (PartitionQueryResponse κ))
    (addr : Nat) :
    Nat → Heap (PartitionQueryRequest ρ) → PartitionQueryResponse κ →
      IterRun (PartitionQueryResponse κ) κ (PartitionQueryRequest ρ) ε
  | 0, h, r => ⟨r.partitions.map .yieldItem, h, r, none⟩
  | fuel + 1, h, r =>
    if r.next_page_token = "" then ⟨r.partitions.map .yieldItem, h, r, none⟩
    else
      let req : PartitionQueryRequest ρ :=
        ⟨r.next_page_token, (h.mem addr).rest⟩
      let h1 := h.set addr req
      match m req with
      | .error e =>
        ⟨r.partitions.map .yieldItem ++ [.fetchCall req], h1, r, some e⟩
      | .ok r2 =>
        let rest := pqIterLoop m addr fuel h1 r2
        ⟨r.partitions.map .yieldItem ++ .fetchCall req :: rest.events,
         rest.heap, rest.resp, rest.err⟩

def PartitionQueryPager.iter (p : PartitionQueryPager κ ρ ε)
    (h : Heap (PartitionQueryRequest ρ)) (fuel : Nat) :
    IterRun (PartitionQueryResponse κ) κ (PartitionQueryRequest ρ) ε :=
  pqIterLoop p._method p._reqAddr fuel h p._response

def PartitionQueryPager.lookupAttr (p : PartitionQueryPager κ ρ ε)
    (name : String) : AttrResult :=
  if name ∈ pagerOwnNames then .own name
  else .forwarded (p._response.attrs.lookup name)

def PartitionQueryPager.reprStr (rr : PartitionQueryResponse κ → String)
    (p : PartitionQueryPager κ ρ ε) : String :=
  "PartitionQueryPager" ++ "<" ++ rr p._response ++ ">"

/-! ### Conversions between the concrete classes and the generic model -/

def Heap.map (f : τ → τ') (h : Heap τ) : Heap τ' :=
  ⟨h.next, fun a => f (h.mem a)⟩

def PagesRun.map (f : R → R') (g : Q → Q') (x : PagesRun R Q ε) :
    PagesRun R' Q' ε :=
  ⟨x.yields.map f, x.calls.map g, x.heap.map g, f x.resp, x.err⟩

def PagerEv.map (fi : ι → ι') (fq : Q → Q') :
    PagerEv ι Q → PagerEv ι' Q'
  | .yieldItem x => .yieldItem (fi x)
  | .fetchCall q => .fetchCall (fq q)

def IterRun.map (f : R → R') (fi : ι → ι') (fq : Q → Q')
    (x : IterRun R ι Q ε) : IterRun R' ι' Q' ε :=
  ⟨x.events.map (PagerEv.map fi fq), x.heap.map fq, f x.resp, x.err⟩

def ListDocumentsRequest.toReq (q : ListDocumentsRequest ρ) : Request ρ :=
  ⟨q.page_token, q.rest⟩

def Request.toLDReq (q : Request ρ) : ListDocumentsRequest ρ :=
  ⟨q.page_token, q.rest⟩

def ListDocumentsResponse.toResp (r : ListDocumentsResponse δ) : Response δ :=
  ⟨r.documents, r.next_page_token, r.attrs⟩

def Response.toLDResp (r : Response δ) : ListDocumentsResponse δ :=
  ⟨r.items, r.next_page_token, r.attrs⟩

/-- A `ListDocuments` fetch method viewed through the generic model. -/
def ldMethod (m : ListDocumentsRequest ρ → Except ε (ListDocumentsResponse δ)) :
    Request ρ → Except ε (Response δ) :=
  fun q => (m q.toLDReq).map ListDocumentsResponse.toResp

def ListDocumentsPager.toPager (p : ListDocumentsPager δ ρ ε) : Pager δ ρ ε :=
  ⟨ldMethod p._method, p._reqAddr, p._response.toResp⟩

def PartitionQueryRequest.toReq (q : PartitionQueryRequest ρ) : Request ρ :=
  ⟨q.page_token, q.rest⟩

def Request.toPQReq (q : Request ρ) : PartitionQueryRequest ρ :=
  ⟨q.page_token, q.rest⟩

def PartitionQueryResponse.toResp (r : PartitionQueryResponse κ) :
    Response κ :=
  ⟨r.partitions, r.next_page_token, r.attrs⟩

/-- A `PartitionQuery` fetch method viewed through the generic model. -/
def pqMethod (m : PartitionQueryRequest ρ → Except ε (PartitionQueryResponse κ)) :
    Request ρ → Except ε (Response κ) :=
  fun q => (m q.toPQReq).map PartitionQueryResponse.toResp

def PartitionQueryPager.toPager (p : PartitionQueryPager κ ρ ε) :
    Pager κ ρ ε :=
  ⟨pqMethod p._method, p._reqAddr, p._response.toResp⟩

/-- Mapping a heap commutes with overwriting a cell. -/
theorem heap_map_set (f : τ → τ') (h : Heap τ) (a : Nat) (x : τ) :
    (h.set a x).map f = (h.map f).set a (f x) := by
  simp only [Heap.map, Heap.set, Heap.mk.injEq, eq_self_iff_true, true_and]
  funext b
  exact apply_ite f _ _ _

/-- Reading a mapped heap reads the mapped cell. -/
theorem heap_map_mem (f : τ → τ') (h : Heap τ) (a : Nat) :
    (h.map f).mem a = f (h.mem a) := rfl

/-- A `ListDocumentsPager` pages run is exactly a generic pages run viewed
through the evident conversions. -/
theorem ldPagesLoop_toGeneric
    (m : ListDocumentsRequest ρ → Except ε (ListDocumentsResponse δ))
    (addr : Nat) :
    ∀ (fuel : Nat) (h : Heap (ListDocumentsRequest ρ))
      (r : ListDocumentsResponse δ),
      PagesRun.map ListDocumentsResponse.toResp ListDocumentsRequest.toReq
          (ldPagesLoop m addr fuel h r) =
        pagesLoop (ldMethod m) addr fuel
          (h.map ListDocumentsRequest.toReq) r.toResp := by
  intro fuel
  induction fuel with
  | zero => intro h r; rfl
  | succ n ih =>
    intro h r
    by_cases htok : r.next_page_token = ""
    · simp [ldPagesLoop, pagesLoop, PagesRun.map, htok,
        ListDocumentsResponse.toResp]
    · cases hm : m ⟨r.next_page_token, (h.mem addr).rest⟩ with
      | error e =>
        simp [ldPagesLoop, pagesLoop, PagesRun.map, htok, hm, ldMethod,
          Except.map, Request.toLDReq, ListDocumentsRequest.toReq,
          ListDocumentsResponse.toResp, heap_map_set, heap_map_mem]
      | ok r2 =>
        have ihh := ih (h.set addr ⟨r.next_page_token, (h.mem addr).rest⟩) r2
        have hy := congrArg PagesRun.yields ihh
        have hc := congrArg PagesRun.calls ihh
        have hh := congrArg PagesRun.heap ihh
        have hr := congrArg PagesRun.resp ihh
        have he := congrArg PagesRun.err ihh
        simp only [PagesRun.map, heap_map_set, ListDocumentsRequest.toReq,
          ListDocumentsResponse.toResp] at hy hc hh hr he
        simp [ldPagesLoop, pagesLoop, PagesRun.map, htok, hm, ldMethod,
          Except.map, Request.toLDReq, ListDocumentsRequest.toReq,
          ListDocumentsResponse.toResp, heap_map_set, heap_map_mem,
          hy, hc, hh, hr, he]

/-- A `ListDocumentsPager` item-view run is exactly a generic item-view run
viewed through the evident conversions. -/
theorem ldIterLoop_toGeneric
    (m : ListDocumentsRequest ρ → Except ε (ListDocumentsResponse δ))
    (addr : Nat) :
    ∀ (fuel : Nat) (h : Heap (ListDocumentsRequest ρ))
      (r : ListDocumentsResponse δ),
      IterRun.map ListDocumentsResponse.toResp id ListDocumentsRequest.toReq
          (ldIterLoop m addr fuel h r) =
        iterLoop (ldMethod m) addr fuel
          (h.map ListDocumentsRequest.toReq) r.toResp := by
  intro fuel
  induction fuel with
  | zero =>
    intro h r
    simp [ldIterLoop, iterLoop, IterRun.map, PagerEv.map,
      ListDocumentsResponse.toResp, Function.comp]
  | succ n ih =>
    intro h r
    by_cases htok : r.next_page_token = ""
    · simp [ldIterLoop, iterLoop, IterRun.map, PagerEv.map, htok,
        ListDocumentsResponse.toResp, Function.comp]
    · cases hm : m ⟨r.next_page_token, (h.mem addr).rest⟩ with
      | error e =>
        simp [ldIterLoop, iterLoop, IterRun.map, PagerEv.map, htok, hm,
          ldMethod, Except.map, Request.toLDReq, ListDocumentsRequest.toReq,
          ListDocumentsResponse.toResp, heap_map_set, heap_map_mem,
          Function.comp]
      | ok r2 =>
        have ihh := ih (h.set addr ⟨r.next_page_token, (h.mem addr).rest⟩) r2
        have hv := congrArg IterRun.events ihh
        have hh := congrArg IterRun.heap ihh
        have hr := congrArg IterRun.resp ihh
        have he := congrArg IterRun.err ihh
        simp only [IterRun.map, heap_map_set, ListDocumentsRequest.toReq,
          ListDocumentsResponse.toResp] at hv hh hr he
        simp [ldIterLoop, iterLoop, IterRun.map, PagerEv.map, htok, hm,
          ldMethod, Except.map, Request.toLDReq, ListDocumentsRequest.toReq,
          ListDocumentsResponse.toResp, heap_map_set, heap_map_mem,
          Function.comp, hv, hh, hr, he]

/-- A `PartitionQueryPager` pages run is exactly a generic pages run viewed
through the evident conversions. -/
theorem pqPagesLoop_toGeneric
    (m : PartitionQueryRequest ρ → Except ε (PartitionQueryResponse κ))
    (addr : Nat) :
    ∀ (fuel : Nat) (h : Heap (PartitionQueryRequest ρ))
      (r : PartitionQueryResponse κ),
      PagesRun.map PartitionQueryResponse.toResp PartitionQueryRequest.toReq
          (pqPagesLoop m addr fuel h r) =
        pagesLoop (pqMethod m) addr fuel
          (h.map PartitionQueryRequest.toReq) r.toResp := by
  intro fuel
  induction fuel with
  | zero => intro h r; rfl
  | succ n ih =>
    intro h r
    by_cases htok : r.next_page_token = ""
    · simp [pqPagesLoop, pagesLoop, PagesRun.map, htok,
        PartitionQueryResponse.toResp]
    · cases hm : m ⟨r.next_page_token, (h.mem addr).rest⟩ with
      | error e =>
        simp [pqPagesLoop, pagesLoop, PagesRun.map, htok, hm, pqMethod,
          Except.map, Request.toPQReq, PartitionQueryRequest.toReq,
          PartitionQueryResponse.toResp, heap_map_set, heap_map_mem]
      | ok r2 =>
        have ihh := ih (h.set addr ⟨r.next_page_token, (h.mem addr).rest⟩) r2
        have hy := congrArg PagesRun.yields ihh
        have hc := congrArg PagesRun.calls ihh
        have hh := congrArg PagesRun.heap ihh
        have hr := congrArg PagesRun.resp ihh
        have he := congrArg PagesRun.err ihh
        simp only [PagesRun.map, heap_map_set, PartitionQueryRequest.toReq,
          PartitionQueryResponse.toResp] at hy hc hh hr he
        simp [pqPagesLoop, pagesLoop, PagesRun.map, htok, hm, pqMethod,
          Except.map, Request.toPQReq, PartitionQueryRequest.toReq,
          PartitionQueryResponse.toResp, heap_map_set, heap_map_mem,
          hy, hc, hh, hr, he]

/-- A `PartitionQueryPager` item-view run is exactly a generic item-view run
viewed through the evident conversions. -/
theorem pqIterLoop_toGeneric
    (m : PartitionQueryRequest ρ → Except ε (PartitionQueryResponse κ))
    (addr : Nat) :
    ∀ (fuel : Nat) (h : Heap (PartitionQueryRequest ρ))
      (r : PartitionQueryResponse κ),
      IterRun.map PartitionQueryResponse.toResp id PartitionQueryRequest.toReq
          (pqIterLoop m addr fuel h r) =
        iterLoop (pqMethod m) addr fuel
          (h.map PartitionQueryRequest.toReq) r.toResp := by
  intro fuel
  induction fuel with
  | zero =>
    intro h r
    simp [pqIterLoop, iterLoop, IterRun.map, PagerEv.map,
      PartitionQueryResponse.toResp, Function.comp]
  | succ n ih =>
    intro h r
    by_cases htok : r.next_page_token = ""
    · simp [pqIterLoop, iterLoop, IterRun.map, PagerEv.map, htok,
        PartitionQueryResponse.toResp, Function.comp]
    · cases hm : m ⟨r.next_page_token, (h.mem addr).rest⟩ with
      | error e =>
        simp [pqIterLoop, iterLoop, IterRun.map, PagerEv.map, htok, hm,
          pqMethod, Except.map, Request.toPQReq, PartitionQueryRequest.toReq,
          PartitionQueryResponse.toResp, heap_map_set, heap_map_mem,
          Function.comp]
      | ok r2 =>
        have ihh := ih (h.set addr ⟨r.next_page_token, (h.mem addr).rest⟩) r2
        have hv := congrArg IterRun.events ihh
        have hh := congrArg IterRun.heap ihh
        have hr := congrArg IterRun.resp ihh
        have he := congrArg IterRun.err ihh
        simp only [IterRun.map, heap_map_set, PartitionQueryRequest.toReq,
          PartitionQueryResponse.toResp] at hv hh hr he
        simp [pqIterLoop, iterLoop, IterRun.map, PagerEv.map, htok, hm,
          pqMethod, Except.map, Request.toPQReq, PartitionQueryRequest.toReq,
          PartitionQueryResponse.toResp, heap_map_set, heap_map_mem,
          Function.comp, hv, hh, hr, he]

def Response.toPQResp (r : Response κ) : PartitionQueryResponse κ :=
  ⟨r.items, r.next_page_token, r.attrs⟩

/-- Construction of a `ListDocumentsPager` corresponds to generic
construction. -/
theorem ld_init_toGeneric
    (m : ListDocumentsRequest ρ → Except ε (ListDocumentsResponse δ))
    (h : Heap (ListDocumentsRequest ρ)) (reqAddr : Nat)
    (resp : ListDocumentsResponse δ) :
    (ListDocumentsPager.init m h reqAddr resp).1.toPager =
      (Pager.init (ldMethod m) (h.map ListDocumentsRequest.toReq) reqAddr
        resp.toResp).1 ∧
    (ListDocumentsPager.init m h reqAddr resp).2.map
        ListDocumentsRequest.toReq =
      (Pager.init (ldMethod m) (h.map ListDocumentsRequest.toReq) reqAddr
        resp.toResp).2 := by
  constructor
  · rfl
  · simp only [ListDocumentsPager.init, Pager.init, Heap.alloc, Heap.map,
      Heap.mk.injEq, eq_self_iff_true, true_and]
    funext b
    by_cases hb : b = h.next <;>
      simp [hb, ListDocumentsRequest.copy, copyRequest,
        ListDocumentsRequest.toReq]

/-- Construction of a `PartitionQueryPager` corresponds to generic
construction. -/
theorem pq_init_toGeneric
    (m : PartitionQueryRequest ρ → Except ε (PartitionQueryResponse κ))
    (h : Heap (PartitionQueryRequest ρ)) (reqAddr : Nat)
    (resp : PartitionQueryResponse κ) :
    (PartitionQueryPager.init m h reqAddr resp).1.toPager =
      (Pager.init (pqMethod m) (h.map PartitionQueryRequest.toReq) reqAddr
        resp.toResp).1 ∧
    (PartitionQueryPager.init m h reqAddr resp).2.map
        PartitionQueryRequest.toReq =
      (Pager.init (pqMethod m) (h.map PartitionQueryRequest.toReq) reqAddr
        resp.toResp).2 := by
  constructor
  · rfl
  · simp only [PartitionQueryPager.init, Pager.init, Heap.alloc, Heap.map,
      Heap.mk.injEq, eq_self_iff_true, true_and]
    funext b
    by_cases hb : b = h.next <;>
      simp [hb, PartitionQueryRequest.copy, copyRequest,
        PartitionQueryRequest.toReq]

/-- Pages enumeration of a `ListDocumentsPager` corresponds to generic pages
enumeration. -/
theorem ld_pages_toGeneric (p : ListDocumentsPager δ ρ ε)
    (h : Heap (ListDocumentsRequest ρ)) (fuel : Nat) :
    PagesRun.map ListDocumentsResponse.toResp ListDocumentsRequest.toReq
        (p.pages h fuel) =
      p.toPager.pages (h.map ListDocumentsRequest.toReq) fuel := by
  have hl := ldPagesLoop_toGeneric p._method p._reqAddr fuel h p._response
  have hy := congrArg PagesRun.yields hl
  have hc := congrArg PagesRun.calls hl
  have hh := congrArg PagesRun.heap hl
  have hr := congrArg PagesRun.resp hl
  have he := congrArg PagesRun.err hl
  simp only [PagesRun.map, ListDocumentsResponse.toResp,
    ListDocumentsRequest.toReq] at hy hc hh hr he
  simp [ListDocumentsPager.pages, Pager.pages, PagesRun.map,
    ListDocumentsPager.toPager, ListDocumentsResponse.toResp,
    ListDocumentsRequest.toReq, hy, hc, hh, hr, he]

/-- Item enumeration of a `ListDocumentsPager` corresponds to generic item
enumeration. -/
theorem ld_iter_toGeneric (p : ListDocumentsPager δ ρ ε)
    (h : Heap (ListDocumentsRequest ρ)) (fuel : Nat) :
    IterRun.map ListDocumentsResponse.toResp id ListDocumentsRequest.toReq
        (p.iter h fuel) =
      p.toPager.iter (h.map ListDocumentsRequest.toReq) fuel := by
  have hl := ldIterLoop_toGeneric p._method p._reqAddr fuel h p._response
  simpa [ListDocumentsPager.iter, Pager.iter, ListDocumentsPager.toPager]
    using hl

/-- Pages enumeration of a `PartitionQueryPager` corresponds to generic
pages enumeration. -/
theorem pq_pages_toGeneric (p : PartitionQueryPager κ ρ ε)
    (h : Heap (PartitionQueryRequest ρ)) (fuel : Nat) :
    PagesRun.map PartitionQueryResponse.toResp PartitionQueryRequest.toReq
        (p.pages h fuel) =
      p.toPager.pages (h.map PartitionQueryRequest.toReq) fuel := by
  have hl := pqPagesLoop_toGeneric p._method p._reqAddr fuel h p._response
  have hy := congrArg PagesRun.yields hl
  have hc := congrArg PagesRun.calls hl
  have hh := congrArg PagesRun.heap hl
  have hr := congrArg PagesRun.resp hl
  have he := congrArg PagesRun.err hl
  simp only [PagesRun.map, PartitionQueryResponse.toResp,
    PartitionQueryRequest.toReq] at hy hc hh hr he
  simp [PartitionQueryPager.pages, Pager.pages, PagesRun.map,
    PartitionQueryPager.toPager, PartitionQueryResponse.toResp,
    PartitionQueryRequest.toReq, hy, hc, hh, hr, he]

/-- Item enumeration of a `PartitionQueryPager` corresponds to generic item
enumeration. -/
theorem pq_iter_toGeneric (p : PartitionQueryPager κ ρ ε)
    (h : Heap (PartitionQueryRequest ρ)) (fuel : Nat) :
    IterRun.map PartitionQueryResponse.toResp id PartitionQueryRequest.toReq
        (p.iter h fuel) =
      p.toPager.iter (h.map PartitionQueryRequest.toReq) fuel := by
  have hl := pqIterLoop_toGeneric p._method p._reqAddr fuel h p._response
  simpa [PartitionQueryPager.iter, Pager.iter, PartitionQueryPager.toPager]
    using hl

/-- C7: `ListDocumentsPager` and `PartitionQueryPager` realize one and the
same paginator abstraction: construction, pages enumeration, item
flattening, attribute lookup (passthrough included) and display of each
class coincide with those of the single generic `Pager`, instantiated at
the respective request/response types with the respective item field
(`documents` versus `partitions`), under the evident conversions. -/
theorem pagers_single_generic_type :
    (∀ (δ ρ ε : Type)
        (m : ListDocumentsRequest ρ → Except ε (ListDocumentsResponse δ))
        (h : Heap (ListDocumentsRequest ρ)) (reqAddr : Nat)
        (resp : ListDocumentsResponse δ),
      (ListDocumentsPager.init m h reqAddr resp).1.toPager =
        (Pager.init (ldMethod m) (h.map ListDocumentsRequest.toReq) reqAddr
          resp.toResp).1 ∧
      (ListDocumentsPager.init m h reqAddr resp).2.map
          ListDocumentsRequest.toReq =
        (Pager.init (ldMethod m) (h.map ListDocumentsRequest.toReq) reqAddr
          resp.toResp).2) ∧
    (∀ (δ ρ ε : Type) (p : ListDocumentsPager δ ρ ε)
        (h : Heap (ListDocumentsRequest ρ)) (fuel : Nat),
      PagesRun.map ListDocumentsResponse.toResp ListDocumentsRequest.toReq
          (p.pages h fuel) =
        p.toPager.pages (h.map ListDocumentsRequest.toReq) fuel) ∧
    (∀ (δ ρ ε : Type) (p : ListDocumentsPager δ ρ ε)
        (h : Heap (ListDocumentsRequest ρ)) (fuel : Nat),
      IterRun.map ListDocumentsResponse.toResp id ListDocumentsRequest.toReq
          (p.iter h fuel) =
        p.toPager.iter (h.map ListDocumentsRequest.toReq) fuel) ∧
    (∀ (δ ρ ε : Type) (p : ListDocumentsPager δ ρ ε) (name : String),
      p.lookupAttr name = p.toPager.lookupAttr name) ∧
    (∀ (δ ρ ε : Type) (p : ListDocumentsPager δ ρ ε)
        (rr : ListDocumentsResponse δ → String),
      p.reprStr rr =
        Pager.reprStr "ListDocumentsPager" (fun x => rr x.toLDResp)
          p.toPager) ∧
    (∀ (κ ρ ε : Type)
        (m : PartitionQueryRequest ρ → Except ε (PartitionQueryResponse κ))
        (h : Heap (PartitionQueryRequest ρ)) (reqAddr : Nat)
        (resp : PartitionQueryResponse κ),
      (PartitionQueryPager.init m h reqAddr resp).1.toPager =
        (Pager.init (pqMethod m) (h.map PartitionQueryRequest.toReq) reqAddr
          resp.toResp).1 ∧
      (PartitionQueryPager.init m h reqAddr resp).2.map
          PartitionQueryRequest.toReq =
        (Pager.init (pqMethod m) (h.map PartitionQueryRequest.toReq) reqAddr
          resp.toResp).2) ∧
    (∀ (κ ρ ε : Type) (p : PartitionQueryPager κ ρ ε)
        (h : Heap (PartitionQueryRequest ρ)) (fuel : Nat),
      PagesRun.map PartitionQueryResponse.toResp PartitionQueryRequest.toReq
          (p.pages h fuel) =
        p.toPager.pages (h.map PartitionQueryRequest.toReq) fuel) ∧
    (∀ (κ ρ ε : Type) (p : PartitionQueryPager κ ρ ε)
        (h : Heap (PartitionQueryRequest ρ)) (fuel : Nat),
      IterRun.map PartitionQueryResponse.toResp id
          PartitionQueryRequest.toReq (p.iter h fuel) =
        p.toPager.iter (h.map PartitionQueryRequest.toReq) fuel) ∧
    (∀ (κ ρ ε : Type) (p : PartitionQueryPager κ ρ ε) (name : String),
      p.lookupAttr name = p.toPager.lookupAttr name) ∧
    (∀ (κ ρ ε : Type) (p : PartitionQueryPager κ ρ ε)
        (rr : PartitionQueryResponse κ → String),
      p.reprStr rr =
        Pager.reprStr "PartitionQueryPager" (fun x => rr x.toPQResp)
          p.toPager) := by
  refine ⟨fun δ ρ ε m h reqAddr resp => ld_init_toGeneric m h reqAddr resp,
    fun δ ρ ε p h fuel => ld_pages_toGeneric p h fuel,
    fun δ ρ ε p h fuel => ld_iter_toGeneric p h fuel,
    fun δ ρ ε p name => rfl,
    fun δ ρ ε p rr => rfl,
    fun κ ρ ε m h reqAddr resp => pq_init_toGeneric m h reqAddr resp,
    fun κ ρ ε p h fuel => pq_pages_toGeneric p h fuel,
    fun κ ρ ε p h fuel => pq_iter_toGeneric p h fuel,
    fun κ ρ ε p name => rfl,
    fun κ ρ ε p rr => rfl⟩
